import Mathlib

/-!
# Verification of cargo-xrun against its specification

Shallow embedding of the cargo-xrun repository (host-side runner, tunnel
file server routing, ssh master port parsing, remote agent) together with
proofs and refutations of the specification claims.

Sections:
* Execution context codec (crates/remote/src/lib.rs, `encode`/`decode`):
  the wire format of the external `wincode` and `base64` crates is modelled
  from the spec: length-prefixed UTF-8 strings and sequences in fixed field
  order, then URL-safe padding-free base64.
* Tunnel file server routing (src/fs_server.rs, `serve_webdav`).
* Drive-letter mount scan (crates/remote/src/lib.rs, `WebDavMount`).
* SSH master stderr port parsing (src/ssh_master.rs, `SshMaster::start`).
* Exit-code propagation (crates/remote `main`, src/lib.rs `cli_main`).
* Host-registry upsert (src/config/config_file.rs, src/runner/config.rs).
-/

namespace CargoXrun

/-- Execution context passed from host to remote binary
(struct `ExecContext`, crates/remote/src/lib.rs). -/
structure ExecContext where
  cwd : String
  envs : List (String × String)
  bin_path : String
  args : List String
  webdav_path : String
deriving DecidableEq, Repr

/-! ## Modelled from the spec: the `wincode` binary serialization stage.

The `wincode` crate is external to this repository.  The spec fixes the
wire format: a schema-tagged binary record with fixed field order
`(cwd, envs, bin_path, args, webdav_path)`; strings are length-prefixed
UTF-8, sequences are length-prefixed.  Lengths are serialized with a
self-delimiting little-endian base-128 varint. -/

/-- Self-delimiting base-128 varint encoding of a length. -/
def serNat (n : Nat) : List Nat :=
  if h : n < 128 then [n]
  else (n % 128 + 128) :: serNat (n / 128)
termination_by n
decreasing_by exact Nat.div_lt_self (by omega) (by omega)

/-- Varint decoder; returns the value and the remaining bytes. -/
def deserNat : List Nat → Option (Nat × List Nat)
  | [] => none
  | b :: rest =>
    if b < 128 then some (b, rest)
    else (deserNat rest).map fun p => ((b - 128) + 128 * p.1, p.2)

/-- UTF-8 encoding of a Unicode code point (total; meaningful for
code points below 0x110000). -/
def utf8EncodeChar (n : Nat) : List Nat :=
  if n < 0x80 then [n]
  else if n < 0x800 then [0xC0 + n / 64, 0x80 + n % 64]
  else if n < 0x10000 then [0xE0 + n / 4096, 0x80 + n / 64 % 64, 0x80 + n % 64]
  else [0xF0 + n / 262144, 0x80 + n / 4096 % 64, 0x80 + n / 64 % 64, 0x80 + n % 64]

/-- UTF-8 encoding guarded by code-point validity: the fallible step of
string serialization (mirrors that Rust `String` guarantees valid UTF-8). -/
def utf8EncodeCharChecked (n : Nat) : Option (List Nat) :=
  if n < 0x110000 then some (utf8EncodeChar n) else none

/-- Decode one UTF-8 character from a head byte and the remaining bytes;
returns the code point and how many continuation bytes were consumed. -/
def utf8DecodeOne (b : Nat) (rest : List Nat) : Option (Nat × Nat) :=
  if b < 0x80 then some (b, 0)
  else if b < 0xC0 then none
  else if b < 0xE0 then
    match rest with
    | b1 :: _ =>
      if 0x80 ≤ b1 ∧ b1 < 0xC0 then some ((b - 0xC0) * 64 + (b1 - 0x80), 1) else none
    | [] => none
  else if b < 0xF0 then
    match rest with
    | b1 :: b2 :: _ =>
      if 0x80 ≤ b1 ∧ b1 < 0xC0 ∧ 0x80 ≤ b2 ∧ b2 < 0xC0 then
        some ((b - 0xE0) * 4096 + (b1 - 0x80) * 64 + (b2 - 0x80), 2)
      else none
    | _ => none
  else if b < 0xF8 then
    match rest with
    | b1 :: b2 :: b3 :: _ =>
      if 0x80 ≤ b1 ∧ b1 < 0xC0 ∧ 0x80 ≤ b2 ∧ b2 < 0xC0 ∧ 0x80 ≤ b3 ∧ b3 < 0xC0 then
        some ((b - 0xF0) * 262144 + (b1 - 0x80) * 4096 + (b2 - 0x80) * 64 + (b3 - 0x80), 3)
      else none
    | _ => none
  else none

/-- Decode a whole byte list as a UTF-8 character sequence. -/
def utf8DecodeChars : List Nat → Option (List Char)
  | [] => some []
  | b :: bs =>
    match utf8DecodeOne b bs with
    | none => none
    | some (n, k) =>
      match utf8DecodeChars (bs.drop k) with
      | none => none
      | some cs => some (Char.ofNat n :: cs)
termination_by l => l.length
decreasing_by
  simp
  omega

theorem utf8DecodeOne_encode (n : Nat) (hn : n < 0x110000) (tail : List Nat) :
    ∃ b extra, utf8EncodeChar n = b :: extra ∧
      utf8DecodeOne b (extra ++ tail) = some (n, extra.length) ∧
      (extra ++ tail).drop extra.length = tail := by
  by_cases h1 : n < 0x80
  · refine ⟨n, [], ?_, ?_, rfl⟩
    · simp [utf8EncodeChar, h1]
    · simp [utf8DecodeOne, h1]
  · by_cases h2 : n < 0x800
    · refine ⟨0xC0 + n / 64, [0x80 + n % 64], ?_, ?_, by simp⟩
      · simp [utf8EncodeChar, h1, h2]
      · simp only [utf8DecodeOne, List.cons_append]
        rw [if_neg (by omega), if_neg (by omega), if_pos (by omega),
          if_pos ⟨by omega, by omega⟩]
        have hv : (0xC0 + n / 64 - 0xC0) * 64 + (0x80 + n % 64 - 0x80) = n := by omega
        rw [hv]
        rfl
    · by_cases h3 : n < 0x10000
      · refine ⟨0xE0 + n / 4096, [0x80 + n / 64 % 64, 0x80 + n % 64], ?_, ?_, by simp⟩
        · simp [utf8EncodeChar, h1, h2, h3]
        · simp only [utf8DecodeOne, List.cons_append]
          rw [if_neg (by omega), if_neg (by omega), if_neg (by omega),
            if_pos (by omega), if_pos ⟨by omega, by omega, by omega, by omega⟩]
          have hv : (0xE0 + n / 4096 - 0xE0) * 4096 + (0x80 + n / 64 % 64 - 0x80) * 64 +
              (0x80 + n % 64 - 0x80) = n := by omega
          rw [hv]
          rfl
      · refine ⟨0xF0 + n / 262144,
          [0x80 + n / 4096 % 64, 0x80 + n / 64 % 64, 0x80 + n % 64], ?_, ?_, by simp⟩
        · simp [utf8EncodeChar, h1, h2, h3]
        · simp only [utf8DecodeOne, List.cons_append]
          rw [if_neg (by omega), if_neg (by omega), if_neg (by omega), if_neg (by omega),
            if_pos (by omega),
            if_pos ⟨by omega, by omega, by omega, by omega, by omega, by omega⟩]
          have hv : (0xF0 + n / 262144 - 0xF0) * 262144 + (0x80 + n / 4096 % 64 - 0x80) * 4096 +
              (0x80 + n / 64 % 64 - 0x80) * 64 + (0x80 + n % 64 - 0x80) = n := by omega
          rw [hv]
          rfl

theorem utf8DecodeChars_encode_cons (n : Nat) (hn : n < 0x110000) (tail : List Nat) :
    utf8DecodeChars (utf8EncodeChar n ++ tail) =
      match utf8DecodeChars tail with
      | none => none
      | some cs => some (Char.ofNat n :: cs) := by
  obtain ⟨b, extra, henc, hdec, hdrop⟩ := utf8DecodeOne_encode n hn tail
  rw [henc, List.cons_append, utf8DecodeChars, hdec]
  simp only [hdrop]

theorem utf8EncodeChar_bytes_lt (n : Nat) (hn : n < 0x110000) :
    ∀ b ∈ utf8EncodeChar n, b < 256 := by
  intro b hb
  unfold utf8EncodeChar at hb
  split_ifs at hb <;> simp at hb <;> omega

theorem char_toNat_lt (c : Char) : c.toNat < 0x110000 := by
  rcases c with ⟨v, hv⟩
  rcases hv with h | h
  · have : v.toNat < 0xd800 := h
    simp [Char.toNat]
    omega
  · have : v.toNat < 0x110000 := h.2
    simp [Char.toNat]
    omega

/-- UTF-8 bytes of a character list; fails on an invalid code point
(unreachable for `Char`, whose code points are valid by construction). -/
def utf8EncodeChars : List Char → Option (List Nat)
  | [] => some []
  | c :: cs =>
    match utf8EncodeCharChecked c.toNat, utf8EncodeChars cs with
    | some bs, some rest => some (bs ++ rest)
    | _, _ => none

theorem utf8EncodeChars_isSome (cs : List Char) :
    utf8EncodeChars cs = some ((cs.map (fun c => utf8EncodeChar c.toNat)).flatten) := by
  induction cs with
  | nil => rfl
  | cons c cs ih =>
    rw [utf8EncodeChars, ih]
    rw [utf8EncodeCharChecked, if_pos (char_toNat_lt c)]
    simp

theorem utf8_roundTrip (cs : List Char) :
    utf8DecodeChars ((cs.map (fun c => utf8EncodeChar c.toNat)).flatten) = some cs := by
  induction cs with
  | nil => simp [utf8DecodeChars]
  | cons c cs ih =>
    simp only [List.map_cons, List.flatten_cons]
    rw [utf8DecodeChars_encode_cons c.toNat (char_toNat_lt c), ih]
    simp

theorem utf8EncodeChars_bytes_lt (cs : List Char) :
    ∀ b ∈ (cs.map (fun c => utf8EncodeChar c.toNat)).flatten, b < 256 := by
  intro b hb
  simp only [List.mem_flatten, List.mem_map] at hb
  obtain ⟨l, ⟨c, _, rfl⟩, hbl⟩ := hb
  exact utf8EncodeChar_bytes_lt _ (char_toNat_lt c) b hbl

theorem deserNat_serNat (n : Nat) (rest : List Nat) :
    deserNat (serNat n ++ rest) = some (n, rest) := by
  induction n using Nat.strong_induction_on with
  | _ n ih =>
    by_cases h : n < 128
    · rw [serNat, dif_pos h]
      simp [deserNat, h]
    · rw [serNat, dif_neg h]
      rw [List.cons_append, deserNat]
      rw [if_neg (by omega)]
      rw [ih (n / 128) (Nat.div_lt_self (by omega) (by omega))]
      simp
      omega

theorem serNat_bytes_lt (n : Nat) : ∀ b ∈ serNat n, b < 256 := by
  induction n using Nat.strong_induction_on with
  | _ n ih =>
    intro b hb
    by_cases h : n < 128
    · rw [serNat, dif_pos h] at hb
      simp at hb
      omega
    · rw [serNat, dif_neg h] at hb
      rcases List.mem_cons.mp hb with h1 | h1
      · omega
      · exact ih (n / 128) (Nat.div_lt_self (by omega) (by omega)) b h1

/-- Serialize one string: varint byte length, then UTF-8 bytes.
Fails only on an invalid code point (unreachable for `Char`). -/
def serString (s : String) : Option (List Nat) :=
  (utf8EncodeChars s.data).map fun bs => serNat bs.length ++ bs

/-- Parse one length-prefixed UTF-8 string. -/
def deserString (l : List Nat) : Option (String × List Nat) :=
  (deserNat l).bind fun p =>
    if p.1 ≤ p.2.length then
      (utf8DecodeChars (p.2.take p.1)).map fun cs => (String.mk cs, p.2.drop p.1)
    else none

/-- Serialize every element in order, collecting the byte chunks. -/
def serAll {α : Type} (f : α → Option (List Nat)) : List α → Option (List (List Nat))
  | [] => some []
  | x :: xs => (f x).bind fun bs => (serAll f xs).map fun parts => bs :: parts

/-- Serialize a length-prefixed sequence. -/
def serSeq {α : Type} (f : α → Option (List Nat)) (xs : List α) : Option (List Nat) :=
  (serAll f xs).map fun parts => serNat xs.length ++ parts.flatten

/-- Parse `n` consecutive items. -/
def deserItems {α : Type} (g : List Nat → Option (α × List Nat)) :
    Nat → List Nat → Option (List α × List Nat)
  | 0, l => some ([], l)
  | n + 1, l =>
    (g l).bind fun p =>
      (deserItems g n p.2).map fun q => (p.1 :: q.1, q.2)

/-- Parse a length-prefixed sequence. -/
def deserSeq {α : Type} (g : List Nat → Option (α × List Nat)) (l : List Nat) :
    Option (List α × List Nat) :=
  (deserNat l).bind fun p => deserItems g p.1 p.2

/-- Serialize one environment pair. -/
def serPair (p : String × String) : Option (List Nat) :=
  (serString p.1).bind fun a => (serString p.2).map fun b => a ++ b

/-- Parse one environment pair. -/
def deserPair (l : List Nat) : Option ((String × String) × List Nat) :=
  (deserString l).bind fun p =>
    (deserString p.2).map fun q => ((p.1, q.1), q.2)

/-- Modelled from the spec: `wincode::serialize` on the `ExecContext`
schema — the five fields in fixed order. -/
def wincodeSerialize (ctx : ExecContext) : Option (List Nat) :=
  (serString ctx.cwd).bind fun a =>
    (serSeq serPair ctx.envs).bind fun b =>
      (serString ctx.bin_path).bind fun c =>
        (serSeq serString ctx.args).bind fun d =>
          (serString ctx.webdav_path).map fun e => a ++ (b ++ (c ++ (d ++ e)))

/-- Modelled from the spec: `wincode::deserialize` on the `ExecContext`
schema, consuming the whole input. -/
def wincodeDeserialize (l : List Nat) : Option ExecContext :=
  (deserString l).bind fun p1 =>
    (deserSeq deserPair p1.2).bind fun p2 =>
      (deserString p2.2).bind fun p3 =>
        (deserSeq deserString p3.2).bind fun p4 =>
          (deserString p4.2).bind fun p5 =>
            if p5.2.isEmpty then
              some ⟨p1.1, p2.1, p3.1, p4.1, p5.1⟩
            else none

theorem serString_isSome (s : String) :
    serString s = some (serNat ((s.data.map (fun c => utf8EncodeChar c.toNat)).flatten).length ++
      (s.data.map (fun c => utf8EncodeChar c.toNat)).flatten) := by
  rw [serString, utf8EncodeChars_isSome]
  rfl

theorem deserString_serString {s : String} {bs : List Nat} (h : serString s = some bs)
    (rest : List Nat) : deserString (bs ++ rest) = some (s, rest) := by
  obtain ⟨cs⟩ := s
  rw [serString_isSome] at h
  injection h with h
  subst h
  rw [deserString, List.append_assoc, deserNat_serNat]
  simp only [Option.some_bind]
  rw [if_pos (by simp only [List.length_append]; omega)]
  rw [List.take_left, List.drop_left, utf8_roundTrip]
  rfl

theorem serString_bytes_lt {s : String} {bs : List Nat} (h : serString s = some bs) :
    ∀ b ∈ bs, b < 256 := by
  rw [serString_isSome] at h
  injection h with h
  subst h
  intro b hb
  rcases List.mem_append.mp hb with h1 | h1
  · exact serNat_bytes_lt _ b h1
  · exact utf8EncodeChars_bytes_lt _ b h1

theorem serPair_roundTrip {p : String × String} {bs : List Nat}
    (h : serPair p = some bs) (rest : List Nat) :
    deserPair (bs ++ rest) = some (p, rest) := by
  rw [serPair] at h
  rcases ha : serString p.1 with _ | a
  · rw [ha] at h
    exact Option.noConfusion h
  rcases hb : serString p.2 with _ | b
  · rw [ha, hb] at h
    exact Option.noConfusion h
  rw [ha, hb] at h
  simp only [Option.some_bind, Option.map_some'] at h
  injection h with h
  subst h
  rw [deserPair, List.append_assoc, deserString_serString ha]
  simp only [Option.some_bind]
  rw [deserString_serString hb]
  rfl

theorem serPair_bytes_lt {p : String × String} {bs : List Nat}
    (h : serPair p = some bs) : ∀ b ∈ bs, b < 256 := by
  rw [serPair] at h
  rcases ha : serString p.1 with _ | a
  · rw [ha] at h
    exact Option.noConfusion h
  rcases hb : serString p.2 with _ | b
  · rw [ha, hb] at h
    exact Option.noConfusion h
  rw [ha, hb] at h
  simp only [Option.some_bind, Option.map_some'] at h
  injection h with h
  subst h
  intro x hx
  rcases List.mem_append.mp hx with h1 | h1
  · exact serString_bytes_lt ha x h1
  · exact serString_bytes_lt hb x h1

theorem deserItems_serAll {α : Type} {f : α → Option (List Nat)}
    {g : List Nat → Option (α × List Nat)}
    (hfg : ∀ x bs, f x = some bs → ∀ rest, g (bs ++ rest) = some (x, rest)) :
    ∀ {xs : List α} {parts : List (List Nat)}, serAll f xs = some parts →
      ∀ rest, deserItems g xs.length (parts.flatten ++ rest) = some (xs, rest) := by
  intro xs
  induction xs with
  | nil =>
    intro parts h rest
    rw [serAll] at h
    injection h with h
    subst h
    rfl
  | cons x xs ih =>
    intro parts h rest
    rw [serAll] at h
    rcases ha : f x with _ | bs
    · rw [ha] at h
      exact Option.noConfusion h
    rcases hb : serAll f xs with _ | ps
    · rw [ha, hb] at h
      exact Option.noConfusion h
    rw [ha, hb] at h
    simp only [Option.some_bind, Option.map_some'] at h
    injection h with h
    subst h
    rw [List.length_cons, List.flatten_cons, List.append_assoc, deserItems, hfg x bs ha]
    simp only [Option.some_bind]
    rw [ih hb rest]
    rfl

theorem serAll_bytes_lt {α : Type} {f : α → Option (List Nat)}
    (hf : ∀ x bs, f x = some bs → ∀ b ∈ bs, b < 256) :
    ∀ {xs : List α} {parts : List (List Nat)}, serAll f xs = some parts →
      ∀ b ∈ parts.flatten, b < 256 := by
  intro xs
  induction xs with
  | nil =>
    intro parts h b hb
    rw [serAll] at h
    injection h with h
    subst h
    simp at hb
  | cons x xs ih =>
    intro parts h b hb
    rw [serAll] at h
    rcases ha : f x with _ | bs
    · rw [ha] at h
      exact Option.noConfusion h
    rcases hbs : serAll f xs with _ | ps
    · rw [ha, hbs] at h
      exact Option.noConfusion h
    rw [ha, hbs] at h
    simp only [Option.some_bind, Option.map_some'] at h
    injection h with h
    subst h
    rw [List.flatten_cons] at hb
    rcases List.mem_append.mp hb with h1 | h1
    · exact hf x bs ha b h1
    · exact ih hbs b h1

theorem deserSeq_serSeq {α : Type} {f : α → Option (List Nat)}
    {g : List Nat → Option (α × List Nat)}
    (hfg : ∀ x bs, f x = some bs → ∀ rest, g (bs ++ rest) = some (x, rest))
    {xs : List α} {bs : List Nat} (h : serSeq f xs = some bs) (rest : List Nat) :
    deserSeq g (bs ++ rest) = some (xs, rest) := by
  rw [serSeq] at h
  rcases hp : serAll f xs with _ | parts
  · rw [hp] at h
    exact Option.noConfusion h
  rw [hp] at h
  simp only [Option.map_some'] at h
  injection h with h
  subst h
  rw [deserSeq, List.append_assoc, deserNat_serNat]
  simp only [Option.some_bind]
  exact deserItems_serAll hfg hp rest

theorem serSeq_bytes_lt {α : Type} {f : α → Option (List Nat)}
    (hf : ∀ x bs, f x = some bs → ∀ b ∈ bs, b < 256)
    {xs : List α} {bs : List Nat} (h : serSeq f xs = some bs) :
    ∀ b ∈ bs, b < 256 := by
  rw [serSeq] at h
  rcases hp : serAll f xs with _ | parts
  · rw [hp] at h
    exact Option.noConfusion h
  rw [hp] at h
  simp only [Option.map_some'] at h
  injection h with h
  subst h
  intro b hb
  rcases List.mem_append.mp hb with h1 | h1
  · exact serNat_bytes_lt _ b h1
  · exact serAll_bytes_lt hf hp b h1

theorem serAll_isSome {α : Type} {f : α → Option (List Nat)}
    (hf : ∀ x, ∃ bs, f x = some bs) (xs : List α) :
    ∃ parts, serAll f xs = some parts := by
  induction xs with
  | nil => exact ⟨[], rfl⟩
  | cons x xs ih =>
    obtain ⟨bs, hbs⟩ := hf x
    obtain ⟨ps, hps⟩ := ih
    refine ⟨bs :: ps, ?_⟩
    rw [serAll, hbs, hps]
    rfl

theorem serString_isSome' (s : String) : ∃ bs, serString s = some bs :=
  ⟨_, serString_isSome s⟩

theorem serPair_isSome (p : String × String) : ∃ bs, serPair p = some bs := by
  obtain ⟨a, ha⟩ := serString_isSome' p.1
  obtain ⟨b, hb⟩ := serString_isSome' p.2
  refine ⟨a ++ b, ?_⟩
  rw [serPair, ha, hb]
  rfl

/-- Shared helper: the modelled binary serialization succeeds on every
execution context (every `Char` carries a valid code point). -/
theorem wincodeSerialize_isSome (ctx : ExecContext) :
    ∃ bs, wincodeSerialize ctx = some bs := by
  obtain ⟨a, ha⟩ := serString_isSome' ctx.cwd
  obtain ⟨pe, hpe⟩ := serAll_isSome serPair_isSome ctx.envs
  obtain ⟨c, hc⟩ := serString_isSome' ctx.bin_path
  obtain ⟨pa, hpa⟩ := serAll_isSome serString_isSome' ctx.args
  obtain ⟨e, he⟩ := serString_isSome' ctx.webdav_path
  exact ⟨_, by rw [wincodeSerialize, ha, serSeq, hpe, hc, serSeq, hpa, he]; rfl⟩

theorem wincodeDeserialize_wincodeSerialize {ctx : ExecContext} {bs : List Nat}
    (h : wincodeSerialize ctx = some bs) : wincodeDeserialize bs = some ctx := by
  rw [wincodeSerialize] at h
  rcases ha : serString ctx.cwd with _ | a
  · rw [ha] at h
    exact Option.noConfusion h
  rcases hb : serSeq serPair ctx.envs with _ | b
  · rw [ha, hb] at h
    exact Option.noConfusion h
  rcases hc : serString ctx.bin_path with _ | c
  · rw [ha, hb, hc] at h
    exact Option.noConfusion h
  rcases hd : serSeq serString ctx.args with _ | d
  · rw [ha, hb, hc, hd] at h
    exact Option.noConfusion h
  rcases he : serString ctx.webdav_path with _ | e
  · rw [ha, hb, hc, hd, he] at h
    exact Option.noConfusion h
  rw [ha, hb, hc, hd, he] at h
  simp only [Option.some_bind, Option.map_some'] at h
  injection h with h
  subst h
  rw [wincodeDeserialize, deserString_serString ha]
  simp only [Option.some_bind]
  rw [deserSeq_serSeq (fun x xbs hx => serPair_roundTrip hx) hb]
  simp only [Option.some_bind]
  rw [deserString_serString hc]
  simp only [Option.some_bind]
  rw [deserSeq_serSeq (fun x xbs hx => deserString_serString hx) hd]
  simp only [Option.some_bind]
  have he' : serString ctx.webdav_path = some e := he
  have : deserString (e ++ []) = some (ctx.webdav_path, []) := deserString_serString he' []
  rw [List.append_nil] at this
  rw [this]
  rfl

theorem wincodeSerialize_bytes_lt {ctx : ExecContext} {bs : List Nat}
    (h : wincodeSerialize ctx = some bs) : ∀ b ∈ bs, b < 256 := by
  rw [wincodeSerialize] at h
  rcases ha : serString ctx.cwd with _ | a
  · rw [ha] at h
    exact Option.noConfusion h
  rcases hb : serSeq serPair ctx.envs with _ | b
  · rw [ha, hb] at h
    exact Option.noConfusion h
  rcases hc : serString ctx.bin_path with _ | c
  · rw [ha, hb, hc] at h
    exact Option.noConfusion h
  rcases hd : serSeq serString ctx.args with _ | d
  · rw [ha, hb, hc, hd] at h
    exact Option.noConfusion h
  rcases he : serString ctx.webdav_path with _ | e
  · rw [ha, hb, hc, hd, he] at h
    exact Option.noConfusion h
  rw [ha, hb, hc, hd, he] at h
  simp only [Option.some_bind, Option.map_some'] at h
  injection h with h
  subst h
  intro x hx
  simp only [List.mem_append] at hx
  rcases hx with h1 | h1 | h1 | h1 | h1
  · exact serString_bytes_lt ha x h1
  · exact serSeq_bytes_lt (fun p pbs hp => serPair_bytes_lt hp) hb x h1
  · exact serString_bytes_lt hc x h1
  · exact serSeq_bytes_lt (fun s sbs hs => serString_bytes_lt hs) hd x h1
  · exact serString_bytes_lt he x h1

/-! ## Modelled from the spec: the URL-safe padding-free base64 stage
(the `base64` crate's `URL_SAFE_NO_PAD` engine). -/

/-- The URL-safe base64 alphabet. -/
def b64Alphabet : List Char :=
  "ABCDEFGHIJKLMNOPQRSTUVWXYZabcdefghijklmnopqrstuvwxyz0123456789-_".data

/-- Sextet value to alphabet character. -/
def b64Char (n : Nat) : Char := b64Alphabet.getD n 'A'

/-- Alphabet character back to sextet value; `none` for foreign characters. -/
def b64Val (c : Char) : Option Nat := b64Alphabet.indexOf? c

/-- Bytes to sextets, processing three bytes into four sextets; a trailing
byte yields two sextets and two trailing bytes yield three (no padding). -/
def b64EncodeChunks : List Nat → List Nat
  | [] => []
  | [b0] => [b0 / 4, b0 % 4 * 16]
  | [b0, b1] => [b0 / 4, b0 % 4 * 16 + b1 / 16, b1 % 16 * 4]
  | b0 :: b1 :: b2 :: rest =>
    b0 / 4 :: (b0 % 4 * 16 + b1 / 16) :: (b1 % 16 * 4 + b2 / 64) :: b2 % 64 ::
      b64EncodeChunks rest

/-- Sextets back to bytes; rejects a lone trailing sextet and nonzero
trailing bits (as the strict decoder of the engine does). -/
def b64DecodeChunks : List Nat → Option (List Nat)
  | [] => some []
  | [_] => none
  | [s0, s1] => if s1 % 16 = 0 then some [s0 * 4 + s1 / 16] else none
  | [s0, s1, s2] =>
    if s2 % 4 = 0 then some [s0 * 4 + s1 / 16, s1 % 16 * 16 + s2 / 4] else none
  | s0 :: s1 :: s2 :: s3 :: rest =>
    (b64DecodeChunks rest).map fun bs =>
      (s0 * 4 + s1 / 16) :: (s1 % 16 * 16 + s2 / 4) :: (s2 % 4 * 64 + s3) :: bs

/-- URL-safe padding-free base64 of a byte list. -/
def base64Encode (bs : List Nat) : String :=
  String.mk ((b64EncodeChunks bs).map b64Char)

/-- Strict URL-safe padding-free base64 decoding. -/
def base64Decode (s : String) : Option (List Nat) :=
  (s.data.mapM b64Val).bind b64DecodeChunks

theorem b64EncodeChunks_lt {bs : List Nat} (h : ∀ b ∈ bs, b < 256) :
    ∀ s ∈ b64EncodeChunks bs, s < 64 := by
  induction bs using b64EncodeChunks.induct with
  | case1 =>
    intro s hs
    simp [b64EncodeChunks] at hs
  | case2 b0 =>
    intro s hs
    have hb0 := h b0 (by simp)
    rw [b64EncodeChunks] at hs
    simp at hs
    rcases hs with h1 | h1 <;> omega
  | case3 b0 b1 =>
    intro s hs
    have hb0 := h b0 (by simp)
    have hb1 := h b1 (by simp)
    rw [b64EncodeChunks] at hs
    simp at hs
    rcases hs with h1 | h1 | h1 <;> omega
  | case4 b0 b1 b2 rest ih =>
    intro s hs
    have hb0 := h b0 (by simp)
    have hb1 := h b1 (by simp)
    have hb2 := h b2 (by simp)
    rw [b64EncodeChunks] at hs
    simp only [List.mem_cons] at hs
    rcases hs with h1 | h1 | h1 | h1 | h1
    · omega
    · omega
    · omega
    · omega
    · exact ih (fun b hb => h b (by simp [hb])) s h1

theorem b64DecodeChunks_encode {bs : List Nat} (h : ∀ b ∈ bs, b < 256) :
    b64DecodeChunks (b64EncodeChunks bs) = some bs := by
  induction bs using b64EncodeChunks.induct with
  | case1 => rfl
  | case2 b0 =>
    have hb0 := h b0 (by simp)
    rw [b64EncodeChunks, b64DecodeChunks, if_pos (by omega)]
    have hv : b0 / 4 * 4 + b0 % 4 * 16 / 16 = b0 := by omega
    rw [hv]
  | case3 b0 b1 =>
    have hb0 := h b0 (by simp)
    have hb1 := h b1 (by simp)
    rw [b64EncodeChunks, b64DecodeChunks, if_pos (by omega)]
    have hv0 : b0 / 4 * 4 + (b0 % 4 * 16 + b1 / 16) / 16 = b0 := by omega
    have hv1 : (b0 % 4 * 16 + b1 / 16) % 16 * 16 + b1 % 16 * 4 / 4 = b1 := by omega
    rw [hv0, hv1]
  | case4 b0 b1 b2 rest ih =>
    have hb0 := h b0 (by simp)
    have hb1 := h b1 (by simp)
    have hb2 := h b2 (by simp)
    have hrest := ih (fun b hb => h b (by simp [hb]))
    rw [b64EncodeChunks]
    have hne : b64EncodeChunks rest = b64EncodeChunks rest := rfl
    rcases hr : b64EncodeChunks rest with _ | ⟨t0, ts⟩
    · rw [hr] at hrest
      rw [b64DecodeChunks, hrest]
      have hv0 : b0 / 4 * 4 + (b0 % 4 * 16 + b1 / 16) / 16 = b0 := by omega
      have hv1 : (b0 % 4 * 16 + b1 / 16) % 16 * 16 + (b1 % 16 * 4 + b2 / 64) / 4 = b1 := by
        omega
      have hv2 : (b1 % 16 * 4 + b2 / 64) % 4 * 64 + b2 % 64 = b2 := by omega
      rw [hv0, hv1, hv2]
      rfl
    · rw [hr] at hrest
      rw [b64DecodeChunks, hrest]
      have hv0 : b0 / 4 * 4 + (b0 % 4 * 16 + b1 / 16) / 16 = b0 := by omega
      have hv1 : (b0 % 4 * 16 + b1 / 16) % 16 * 16 + (b1 % 16 * 4 + b2 / 64) / 4 = b1 := by
        omega
      have hv2 : (b1 % 16 * 4 + b2 / 64) % 4 * 64 + b2 % 64 = b2 := by omega
      rw [hv0, hv1, hv2]
      rfl

theorem b64Val_b64Char : ∀ n < 64, b64Val (b64Char n) = some n := by decide

theorem mapM_b64Val_map_b64Char {ss : List Nat} (h : ∀ s ∈ ss, s < 64) :
    (ss.map b64Char).mapM b64Val = some ss := by
  induction ss with
  | nil => rfl
  | cons s ss ih =>
    rw [List.map_cons, List.mapM_cons, b64Val_b64Char s (h s (by simp)),
      ih (fun x hx => h x (by simp [hx]))]
    rfl

theorem base64_roundTrip {bs : List Nat} (h : ∀ b ∈ bs, b < 256) :
    base64Decode (base64Encode bs) = some bs := by
  rw [base64Encode, base64Decode]
  have hdata : (String.mk ((b64EncodeChunks bs).map b64Char)).data =
      (b64EncodeChunks bs).map b64Char := rfl
  rw [hdata, mapM_b64Val_map_b64Char (b64EncodeChunks_lt h)]
  rw [Option.some_bind, b64DecodeChunks_encode h]

/-- Embedding of `encode::encode_context` (crates/remote/src/lib.rs):
binary serialization (whose `.unwrap()` is modelled by `getD`, justified
by `wincodeSerialize_isSome`) followed by URL-safe no-pad base64. -/
def encode_context (ctx : ExecContext) : String :=
  base64Encode ((wincodeSerialize ctx).getD [])

/-- Embedding of `decode::decode_context` (crates/remote/src/lib.rs):
base64 decoding then binary deserialization; any failure yields `none`. -/
def decode_context (encoded : String) : Option ExecContext :=
  (base64Decode encoded).bind wincodeDeserialize

/-- C1: for every `ExecContext` (empty sequences, non-ASCII, separator and
shell-escaping characters included), `decode_context (encode_context ctx)`
succeeds and reproduces every field of `ctx` exactly. -/
theorem decode_encode_roundTrip (ctx : ExecContext) :
    decode_context (encode_context ctx) = some ctx := by
  obtain ⟨bs, hbs⟩ := wincodeSerialize_isSome ctx
  rw [encode_context, hbs, Option.getD_some, decode_context,
    base64_roundTrip (wincodeSerialize_bytes_lt hbs), Option.some_bind,
    wincodeDeserialize_wincodeSerialize hbs]

/-- C9: `encode_context` is total — the binary serialization step succeeds
on every `ExecContext`, so the `.unwrap()` inside `encode_context` is
unreachable and encoding always produces a token. -/
theorem encode_context_total (ctx : ExecContext) :
    ∃ bs, wincodeSerialize ctx = some bs ∧ encode_context ctx = base64Encode bs := by
  obtain ⟨bs, hbs⟩ := wincodeSerialize_isSome ctx
  exact ⟨bs, hbs, by rw [encode_context, hbs, Option.getD_some]⟩

/-! ## Tunnel file server routing (src/fs_server.rs, `serve_webdav`). -/

/-- The agent-binary root's URL path root string, checked first. -/
def remoteBinRoot : List Char := "/remote-bin".data

/-- The passthrough filesystem root's URL path root string, checked second. -/
def fsRoot : List Char := "/fs".data

/-- Outcome of dispatching one request path. -/
inductive RouteResult where
  | remoteBin (stripped : List Char)
  | fs (stripped : List Char)
  | notFound
deriving DecidableEq, Repr

/-- Embedding of the request dispatch in `serve_webdav` (src/fs_server.rs
lines 91-108): the request path is tested with `starts_with` against
`"/remote-bin"`, then `"/fs"`; the matched handler strips its configured
path root (`strip_prefix` on the handler builder); no match gives 404. -/
def routeRequest (path : List Char) : RouteResult :=
  if remoteBinRoot.isPrefixOf path then .remoteBin (path.drop remoteBinRoot.length)
  else if fsRoot.isPrefixOf path then .fs (path.drop fsRoot.length)
  else .notFound

/-- Written from the spec's words, for comparison with `routeRequest`:
a root prefix matches boundary-exactly when the path equals it or
continues it at a segment boundary. -/
def boundaryMatches (root path : List Char) : Bool :=
  path == root || (root ++ ['/']).isPrefixOf path

/-- Written from the spec's words, for comparison with `routeRequest`:
routing by boundary-exact matching, as the claim describes it. -/
def routeRequestSpec (path : List Char) : RouteResult :=
  if boundaryMatches remoteBinRoot path then .remoteBin (path.drop remoteBinRoot.length)
  else if boundaryMatches fsRoot path then .fs (path.drop fsRoot.length)
  else .notFound

theorem remoteBinRoot_not_prefixOf_fs (s : List Char) :
    remoteBinRoot.isPrefixOf ('/' :: 'f' :: 's' :: s) = false := by
  simp [remoteBinRoot, List.isPrefixOf]

/-- C2 counterexample: routing is a bare leading-string match, not
boundary-exact: the path `/remote-binx` is dispatched to the agent-binary
root by the code even though no boundary-exact match exists. -/
theorem routeRequest_not_boundary_exact :
    routeRequest "/remote-binx".data = .remoteBin "x".data ∧
      routeRequestSpec "/remote-binx".data = .notFound := by
  constructor <;> decide

/-- C2 amended: each request is dispatched to the first root (checked in
the order agent-binary root, then filesystem root) whose path root is a
leading string of the request path (`starts_with`, not boundary-exact);
the matched root string is stripped before dispatch; a path matching
neither gives 404; in particular `/remote-bin/x` is served by the
agent-binary root with `/x` left after stripping. -/
theorem routeRequest_spec (s path : List Char) :
    routeRequest (remoteBinRoot ++ s) = .remoteBin s ∧
      routeRequest (fsRoot ++ s) = .fs s ∧
      (remoteBinRoot.isPrefixOf path = false → fsRoot.isPrefixOf path = false →
        routeRequest path = .notFound) ∧
      routeRequest "/remote-bin/x".data = .remoteBin "/x".data := by
  refine ⟨?_, ?_, ?_, by decide⟩
  · rw [routeRequest, if_pos (List.isPrefixOf_iff_prefix.mpr (List.prefix_append _ s))]
    simp [remoteBinRoot]
  · show routeRequest ('/' :: 'f' :: 's' :: s) = .fs s
    rw [routeRequest]
    rw [if_neg (by rw [remoteBinRoot_not_prefixOf_fs]; exact Bool.false_ne_true)]
    rw [if_pos (show fsRoot.isPrefixOf ('/' :: 'f' :: 's' :: s) = true from
      List.isPrefixOf_iff_prefix.mpr ⟨s, rfl⟩)]
    rfl
  · intro h1 h2
    rw [routeRequest, if_neg (by rw [h1]; exact Bool.false_ne_true),
      if_neg (by rw [h2]; exact Bool.false_ne_true)]

/-- C2 witness: the amended routing theorem applied at concrete paths. -/
theorem routeRequest_spec_witness :
    routeRequest "/unknown".data = .notFound ∧
      routeRequest ("/fs".data ++ "/etc/hosts".data) = .fs "/etc/hosts".data :=
  ⟨(routeRequest_spec [] "/unknown".data).2.2.1 (by decide) (by decide),
    (routeRequest_spec "/etc/hosts".data []).2.1⟩

/-! ## Drive-letter mount scan (crates/remote/src/lib.rs, `WebDavMount`).

The platform `subst` utility is an external collaborator; its observable
behaviour at each invocation is an environment parameter.  `attempt d` is
the outcome of `subst <d> <path>` for designator `d`; `listing d` is the
outcome of the bare `subst` listing run after that designator's failure. -/

/-- Captured output of one `subst` invocation: exit status, stdout, stderr. -/
structure SubstOutput where
  success : Bool
  stdout : String
  stderr : String
deriving DecidableEq, Repr

/-- Environment: outcomes of the platform drive-mapping utility. -/
structure SubstEnv where
  attempt : String → SubstOutput
  listing : String → SubstOutput

/-- Embedding of struct `WebDavMount`; `webdav_root` models the source
field `webdav_prefix`. -/
structure WebDavMount where
  drive_letter : String
  webdav_root : String
deriving DecidableEq, Repr

/-- Substring containment on character lists (Rust `str::contains`). -/
def listContains (hay needle : List Char) : Bool :=
  needle.isPrefixOf hay ||
    match hay with
    | [] => false
    | _ :: t => listContains t needle

/-- Whitespace trimming at both ends (Rust `str::trim`). -/
def trimChars (cs : List Char) : List Char :=
  ((cs.dropWhile Char.isWhitespace).reverse.dropWhile Char.isWhitespace).reverse

/-- The scanned designators in source order: `(b\'A\'..=b\'Z\').rev()`,
each formatted with a trailing colon — `Z:` first, `A:` last. -/
def driveStrings : List String :=
  (List.range 26).map fun i => String.mk [Char.ofNat (90 - i), ':']

/-- The in-use classification: the listing command succeeded and its
stdout contains the designator string. -/
def classifiedInUse (env : SubstEnv) (drive : String) : Bool :=
  (env.listing drive).success && listContains (env.listing drive).stdout.data drive.data

/-- The remembered error message: stderr then stdout, trimmed. -/
def failMsg (out : SubstOutput) : String :=
  String.mk (trimChars (out.stderr.data ++ out.stdout.data))

/-- Error carried forward after a failed designator: kept unchanged for an
in-use failure; otherwise the FIRST message is remembered (the source only
assigns when `last_error.is_none()`). -/
def nextErr (env : SubstEnv) (drive : String) (lastErr : Option String) : Option String :=
  if classifiedInUse env drive then lastErr
  else if lastErr.isNone then some (failMsg (env.attempt drive)) else lastErr

/-- Loop of `WebDavMount::mount`: walk the designator list carrying the
remembered error; also return the designators attempted, in order. -/
def mountGo (env : SubstEnv) (webdav_path : String) :
    List String → Option String → Except String WebDavMount × List String
  | [], lastErr => (.error (lastErr.getD "No available drive letters"), [])
  | drive :: rest, lastErr =>
    if (env.attempt drive).success then (.ok ⟨drive, webdav_path⟩, [drive])
    else
      ((mountGo env webdav_path rest (nextErr env drive lastErr)).1,
        drive :: (mountGo env webdav_path rest (nextErr env drive lastErr)).2)

/-- Embedding of `WebDavMount::mount` (crates/remote/src/lib.rs 49-93). -/
def mount (env : SubstEnv) (webdav_path : String) : Except String WebDavMount :=
  (mountGo env webdav_path driveStrings none).1

/-- The designators attempted by one `mount` call, in order. -/
def mountTrace (env : SubstEnv) (webdav_path : String) : List String :=
  (mountGo env webdav_path driveStrings none).2

/-- First failure classified as non-in-use along the scan. -/
def firstOtherError (env : SubstEnv) (ds : List String) : Option String :=
  (ds.find? fun d => !classifiedInUse env d).map fun d => failMsg (env.attempt d)

/-- Written from the spec\'s words, for comparison with `mount`: the LAST
failure classified as non-in-use encountered during the scan. -/
def lastOtherError (env : SubstEnv) (ds : List String) : Option String :=
  (ds.reverse.find? fun d => !classifiedInUse env d).map fun d => failMsg (env.attempt d)

/-- Eager choice on options (first value wins). -/
def orOpt : Option String → Option String → Option String
  | some m, _ => some m
  | none, y => y

theorem mountGo_trace (env : SubstEnv) (path : String) :
    ∀ (ds : List String) (le : Option String),
      (mountGo env path ds le).2 =
        ds.takeWhile (fun d => !(env.attempt d).success) ++
          (ds.find? fun d => (env.attempt d).success).toList := by
  intro ds
  induction ds with
  | nil => intro le; rfl
  | cons d ds ih =>
    intro le
    rw [mountGo]
    by_cases h : (env.attempt d).success = true
    · rw [if_pos h, List.takeWhile_cons_of_neg (by simp [h]),
        List.find?_cons_of_pos _ (by simp [h])]
      rfl
    · rw [if_neg h, List.takeWhile_cons_of_pos (by simp [h]),
        List.find?_cons_of_neg _ (by simp [h])]
      exact congrArg (List.cons d) (ih (nextErr env d le))

theorem mountGo_trace_isPrefix (env : SubstEnv) (path : String) :
    ∀ (ds : List String) (le : Option String), (mountGo env path ds le).2 <+: ds := by
  intro ds
  induction ds with
  | nil => intro le; exact ⟨[], rfl⟩
  | cons d ds ih =>
    intro le
    rw [mountGo]
    by_cases h : (env.attempt d).success = true
    · rw [if_pos h]
      exact ⟨ds, rfl⟩
    · rw [if_neg h]
      obtain ⟨t, ht⟩ := ih (nextErr env d le)
      refine ⟨t, ?_⟩
      show d :: (mountGo env path ds (nextErr env d le)).2 ++ t = d :: ds
      rw [List.cons_append, ht]

theorem mountGo_ok (env : SubstEnv) (path : String) :
    ∀ (ds : List String) (le : Option String) (d : String),
      (ds.find? fun x => (env.attempt x).success) = some d →
      (mountGo env path ds le).1 = .ok ⟨d, path⟩ := by
  intro ds
  induction ds with
  | nil => intro le d h; exact Option.noConfusion h
  | cons x ds ih =>
    intro le d h
    rw [mountGo]
    by_cases hx : (env.attempt x).success = true
    · rw [List.find?_cons_of_pos _ (by simp [hx])] at h
      injection h with h
      subst h
      rw [if_pos hx]
    · rw [List.find?_cons_of_neg _ (by simp [hx])] at h
      rw [if_neg hx]
      exact ih (nextErr env x le) d h

theorem mountGo_exhausted (env : SubstEnv) (path : String) :
    ∀ (ds : List String) (le : Option String),
      (∀ d ∈ ds, (env.attempt d).success = false) →
      (mountGo env path ds le).1 =
        .error ((orOpt le (firstOtherError env ds)).getD "No available drive letters") := by
  intro ds
  induction ds with
  | nil =>
    intro le _
    rcases le with _ | m <;> rfl
  | cons d ds ih =>
    intro le h
    have hd : (env.attempt d).success = false := h d (by simp)
    rw [mountGo, if_neg (by rw [hd]; exact Bool.false_ne_true)]
    show (mountGo env path ds (nextErr env d le)).1 = _
    rw [ih (nextErr env d le) (fun x hx => h x (List.mem_cons_of_mem d hx))]
    have harg : orOpt (nextErr env d le) (firstOtherError env ds) =
        orOpt le (firstOtherError env (d :: ds)) := by
      by_cases hiu : classifiedInUse env d = true
      · simp only [nextErr, if_pos hiu, firstOtherError]
        rw [List.find?_cons_of_neg _ (by simp [hiu])]
      · simp only [nextErr, if_neg hiu, firstOtherError]
        rw [List.find?_cons_of_pos _ (by simp [hiu])]
        rcases le with _ | m <;> rfl
    rw [harg]

/-- C4: `mount` attempts designators in strictly descending order (`Z:`
first, `A:` last): the attempted designators are exactly the leading
non-successful stretch of the descending designator list followed by the
first successful one; they form a duplicate-free leading segment of that
list (so no designator is ever retried, and in-use failures are scanned
past), and when some designator succeeds, `mount` returns the first
successful one together with the tunnel path. -/
theorem mount_scan_spec (env : SubstEnv) (path : String) :
    mountTrace env path =
        driveStrings.takeWhile (fun d => !(env.attempt d).success) ++
          (driveStrings.find? fun d => (env.attempt d).success).toList ∧
      (mountTrace env path).Nodup ∧
      mountTrace env path <+: driveStrings ∧
      ∀ d, (driveStrings.find? fun x => (env.attempt x).success) = some d →
        mount env path = .ok ⟨d, path⟩ := by
  have hpre := mountGo_trace_isPrefix env path driveStrings none
  refine ⟨mountGo_trace env path driveStrings none, ?_, hpre, ?_⟩
  · exact (show driveStrings.Nodup by decide).sublist hpre.sublist
  · intro d h
    exact mountGo_ok env path driveStrings none d h

/-- Environment for the C4 witness: `Z:`, `Y:`, `X:` are reported in use
by the listing, `W:` mounts successfully. -/
def env1 : SubstEnv where
  attempt d := if d = "W:" then ⟨true, "", ""⟩ else ⟨false, "", ""⟩
  listing _ := ⟨true, "Z: Y: X:", ""⟩

/-- C4 witness: the scan theorem applied to `env1` — the first free
designator `W:` is returned. -/
theorem mount_scan_spec_witness : mount env1 "p" = .ok ⟨"W:", "p"⟩ :=
  (mount_scan_spec env1 "p").2.2.2 "W:" (by decide)

/-- C3 amended: if every designator fails, `mount` fails with the FIRST
failure classified as non-in-use (the source keeps only the first such
message, despite the variable name `last_error`); when every failure is
classified in-use the error is the fixed exhaustion message, which
distinguishes exhaustion from a single transport failure. -/
theorem mount_exhaustion_spec (env : SubstEnv) (path : String)
    (h : ∀ d ∈ driveStrings, (env.attempt d).success = false) :
    mount env path =
        .error ((firstOtherError env driveStrings).getD "No available drive letters") ∧
      ((∀ d ∈ driveStrings, classifiedInUse env d = true) →
        mount env path = .error "No available drive letters") := by
  have h1 : mount env path =
      .error ((firstOtherError env driveStrings).getD "No available drive letters") :=
    mountGo_exhausted env path driveStrings none h
  refine ⟨h1, fun hall => ?_⟩
  have hfo : firstOtherError env driveStrings = none := by
    rw [firstOtherError, List.find?_eq_none.mpr]
    · rfl
    · intro d hd
      simp [hall d hd]
  rw [h1, hfo]
  rfl

/-- Environment for the C3 counterexample: every `subst` attempt fails;
the listing lists every designator except `Z:` and `Y:`, so exactly those
two are classified non-in-use, with messages `alpha` then `beta`. -/
def env0 : SubstEnv where
  attempt d :=
    ⟨false, "", if d = "Z:" then "alpha" else if d = "Y:" then "beta" else ""⟩
  listing _ :=
    ⟨true, "X: W: V: U: T: S: R: Q: P: O: N: M: L: K: J: I: H: G: F: E: D: C: B: A:", ""⟩

/-- C3 counterexample: on exhaustion the code returns the FIRST non-in-use
classified error (`alpha`, from `Z:`), not the LAST one encountered during
the scan (`beta`, from `Y:`) as the claim states. -/
theorem mount_exhaustion_keeps_first_error :
    mount env0 "q" = .error "alpha" ∧
      lastOtherError env0 driveStrings = some "beta" ∧ "alpha" ≠ "beta" :=
  ⟨by rfl, by decide, by decide⟩

/-- C3 witness: `mount_exhaustion_spec` applied to the concrete
exhausting environment `env0`. -/
theorem mount_exhaustion_spec_witness :
    mount env0 "q" =
      .error ((firstOtherError env0 driveStrings).getD "No available drive letters") :=
  (mount_exhaustion_spec env0 "q" (by decide)).1

/-! ## SSH master stderr port parsing (src/ssh_master.rs, `SshMaster::start`).

Diagnostic lines are modelled as character lists, each line as delivered by
`read_line` (trailing newline included). -/

/-- The fixed marker announcing the allocated port: `"Allocated port "`. -/
def portMarker : List Char := "Allocated port ".data

/-- First whitespace-separated token (Rust `split_whitespace().next()`). -/
def firstTokenL (cs : List Char) : Option (List Char) :=
  let t := (cs.dropWhile Char.isWhitespace).takeWhile fun c => !c.isWhitespace
  if t.isEmpty then none else some t

/-- Rust `str::parse::<u16>`: optional leading plus sign, then decimal
digits, value at most 65535. -/
def parseU16 (cs : List Char) : Option Nat :=
  let ds := if cs.head? = some '+' then cs.tail else cs
  if ds.isEmpty then none
  else if ds.all Char.isDigit then
    let v := ds.foldl (fun a c => a * 10 + (c.toNat - 48)) 0
    if v < 65536 then some v else none
  else none

/-- Port extraction from a marker line (ssh_master.rs 59-64): the bytes
after the marker, first whitespace-separated token, parsed as `u16`;
each failure is the distinct context error of the source. -/
def parseAllocatedPort (line : List Char) : Except String Nat :=
  match firstTokenL (line.drop portMarker.length) with
  | none => .error "Failed to parse allocated port from ssh output"
  | some tok =>
    match parseU16 tok with
    | none => .error "Failed to parse allocated port"
    | some p => .ok p

/-- Embedding of the stderr read loop (ssh_master.rs 48-70): lines are
read in order; a line starting with the marker ends the loop with the
parsed port (or a parse error); every other line is forwarded to the
operator's stderr (second component, in order); end of stream gives
`none`. -/
def readPortLoop : List (List Char) → Except String (Option Nat) × List (List Char)
  | [] => (.ok none, [])
  | l :: rest =>
    if portMarker.isPrefixOf l then ((parseAllocatedPort l).map some, [])
    else ((readPortLoop rest).1, l :: (readPortLoop rest).2)

/-- C5: for every diagnostic stream in which some line is the fixed marker
followed by a number (all earlier lines lacking the marker), the reader
extracts exactly that number, and the earlier lines are forwarded
unchanged and in their original order. -/
theorem readPortLoop_spec (pre : List (List Char)) (tail tok : List Char)
    (post : List (List Char)) (n : Nat)
    (hpre : ∀ l ∈ pre, portMarker.isPrefixOf l = false)
    (htok : firstTokenL tail = some tok)
    (hnum : parseU16 tok = some n) :
    readPortLoop (pre ++ (portMarker ++ tail) :: post) = (.ok (some n), pre) := by
  induction pre with
  | nil =>
    rw [List.nil_append, readPortLoop,
      if_pos (List.isPrefixOf_iff_prefix.mpr ⟨tail, rfl⟩)]
    simp only [parseAllocatedPort, List.drop_left, htok, hnum]
    rfl
  | cons p pre ih =>
    have hp : portMarker.isPrefixOf p = false := hpre p (by simp)
    rw [List.cons_append, readPortLoop,
      if_neg (by rw [hp]; exact Bool.false_ne_true),
      ih fun l hl => hpre l (List.mem_cons_of_mem p hl)]

/-- C5 witness: the spec's own scenario — two unrelated lines, then
`Allocated port 41234 for remote forward ...` — yields port `41234` with
the unrelated lines forwarded in order. -/
theorem readPortLoop_spec_witness :
    readPortLoop (["debug1: Connecting...\n".data, "Warning: eof\n".data] ++
        ("Allocated port ".data ++ "41234 for remote forward\n".data) ::
          ["later line\n".data]) =
      (.ok (some 41234), ["debug1: Connecting...\n".data, "Warning: eof\n".data]) :=
  readPortLoop_spec ["debug1: Connecting...\n".data, "Warning: eof\n".data]
    "41234 for remote forward\n".data "41234".data ["later line\n".data] 41234
    (by decide) (by decide) (by decide)

/-! ## Remote agent drive rewrite
(crates/remote/src/lib.rs, `WebDavMount::transform_path`). -/

/-- Rust `str::replace` for a nonempty pattern: replace every leftmost
non-overlapping occurrence, scanning left to right.  (`transform_path`
always passes a nonempty pattern, which ends in a backslash.) -/
def replaceAll (needle repl : List Char) : List Char → List Char
  | [] => []
  | c :: rest =>
    if h : needle ≠ [] ∧ needle.isPrefixOf (c :: rest) then
      repl ++ replaceAll needle repl ((c :: rest).drop needle.length)
    else c :: replaceAll needle repl rest
termination_by l => l.length
decreasing_by
  · rcases needle with _ | ⟨x, xs⟩
    · exact absurd rfl h.1
    · simp
      omega
  · simp

/-- Embedding of `WebDavMount::transform_path` (crates/remote 95-101):
textual replacement of every occurrence of the tunnel root FOLLOWED BY A
BACKSLASH with the drive designator followed by a backslash. -/
def transform_path (m : WebDavMount) (path : String) : String :=
  String.mk (replaceAll (m.webdav_root.data ++ ['\\']) (m.drive_letter.data ++ ['\\'])
    path.data)

/-- Written from the claim's words, for comparison with `transform_path`:
replacement of every occurrence of the bare tunnel root string with the
bare drive designator. -/
def transformPathClaim (m : WebDavMount) (path : String) : String :=
  String.mk (replaceAll m.webdav_root.data m.drive_letter.data path.data)

theorem replaceAll_id {needle repl : List Char} :
    ∀ l : List Char, (∀ i < l.length, needle.isPrefixOf (l.drop i) = false) →
      replaceAll needle repl l = l := by
  intro l
  induction l with
  | nil => intro _; rw [replaceAll]
  | cons c rest ih =>
    intro hno
    have h0 : needle.isPrefixOf (c :: rest) = false := by
      have := hno 0 (by simp)
      rwa [List.drop_zero] at this
    rw [replaceAll, dif_neg fun hc => by rw [hc.2] at h0; exact Bool.noConfusion h0]
    congr 1
    exact ih fun i hi => hno (i + 1) (by simpa using hi)

theorem replaceAll_head_match {needle : List Char} (hne : needle ≠ [])
    (repl b : List Char) :
    replaceAll needle repl (needle ++ b) = repl ++ replaceAll needle repl b := by
  rcases needle with _ | ⟨c, nr⟩
  · exact absurd rfl hne
  · rw [List.cons_append, replaceAll,
      dif_pos ⟨hne, List.isPrefixOf_iff_prefix.mpr ⟨b, rfl⟩⟩]
    congr 1
    have hdrop : ((c :: nr) ++ b).drop (c :: nr).length = b := List.drop_left _ _
    rw [List.cons_append] at hdrop
    rw [hdrop]

theorem replaceAll_append_occurrence {needle repl : List Char} (hne : needle ≠ []) :
    ∀ (a b : List Char),
      (∀ i < a.length, needle.isPrefixOf ((a ++ needle ++ b).drop i) = false) →
      replaceAll needle repl (a ++ needle ++ b) = a ++ repl ++ replaceAll needle repl b := by
  intro a
  induction a with
  | nil =>
    intro b _
    rw [List.nil_append, List.nil_append]
    exact replaceAll_head_match hne repl b
  | cons x a ih =>
    intro b hno
    rw [List.cons_append, List.cons_append, replaceAll, dif_neg]
    · rw [List.cons_append, List.cons_append]
      congr 1
      exact ih b fun i hi => hno (i + 1) (by simpa using hi)
    · intro hc
      have h0 := hno 0 (by simp)
      rw [List.drop_zero, List.cons_append, List.cons_append] at h0
      rw [hc.2] at h0
      exact Bool.noConfusion h0

/-- Mount value used in the C6 theorems. -/
def m0 : WebDavMount := ⟨"Z:", "\\\\host@9999\\DavWWWRoot"⟩

/-- C6 counterexample: the replaced pattern is the tunnel root PLUS a
trailing backslash, not the bare tunnel root: this path contains the
literal tunnel-root substring (not followed by a backslash) yet is NOT
rewritten by the code, while the claim-derived `transformPathClaim`
(replace every bare tunnel-root occurrence) does rewrite it. -/
theorem transform_path_needs_separator :
    transform_path m0 "x\\\\host@9999\\DavWWWRootY" = "x\\\\host@9999\\DavWWWRootY" ∧
      listContains "x\\\\host@9999\\DavWWWRootY".data m0.webdav_root.data = true ∧
      transformPathClaim m0 "x\\\\host@9999\\DavWWWRootY" ≠
        "x\\\\host@9999\\DavWWWRootY" := by
  refine ⟨?_, by decide, ?_⟩
  · rw [transform_path]
    rw [replaceAll_id _ (by decide)]
  · rw [transformPathClaim]
    rw [show "x\\\\host@9999\\DavWWWRootY".data =
      "x".data ++ m0.webdav_root.data ++ "Y".data from by decide]
    rw [replaceAll_append_occurrence (by decide) "x".data "Y".data (by decide)]
    rw [replaceAll_id _ (by decide)]
    decide

/-- C6 amended: `transform_path` textually replaces, scanning left to
right, every occurrence of the tunnel root followed by a backslash with
the designator followed by a backslash, with no path-segment-boundary
check: whatever precedes the occurrence (`a`, which may end mid-segment)
is kept, and the replacement recurses on the remainder, so a path whose
data contains the literal tunnel-root-plus-separator substring is
rewritten at that occurrence. -/
theorem transform_path_spec (m : WebDavMount) (a b : List Char)
    (hno : ∀ i < a.length,
      (m.webdav_root.data ++ ['\\']).isPrefixOf
        ((a ++ (m.webdav_root.data ++ ['\\']) ++ b).drop i) = false) :
    transform_path m (String.mk (a ++ (m.webdav_root.data ++ ['\\']) ++ b)) =
      String.mk (a ++ (m.drive_letter.data ++ ['\\']) ++
        replaceAll (m.webdav_root.data ++ ['\\']) (m.drive_letter.data ++ ['\\']) b) := by
  rw [transform_path]
  congr 1
  exact replaceAll_append_occurrence (by simp) a b hno

/-- C6 witness: the amended theorem applied at a concrete path whose
occurrence of the tunnel root begins in the middle of a path segment. -/
theorem transform_path_spec_witness :
    transform_path m0 (String.mk ("seg-".data ++ (m0.webdav_root.data ++ ['\\']) ++ "y".data)) =
      String.mk ("seg-".data ++ (m0.drive_letter.data ++ ['\\']) ++
        replaceAll (m0.webdav_root.data ++ ['\\']) (m0.drive_letter.data ++ ['\\'])
          "y".data) :=
  transform_path_spec m0 "seg-".data "y".data (by decide)

/-! ## Exit-code propagation (crates/remote/src/lib.rs `main`, windows
branch; src/lib.rs `cli_main`). -/

/-- Embedding of `ExitCode::from(status.code().unwrap_or(1) as u8)` in the
remote agent (crates/remote 190): missing code becomes 1, then the `i32`
is truncated to `u8` (low eight bits, two's complement). -/
def remoteAgentExitCode (code : Option Int) : Nat := ((code.getD 1) % 256).toNat

/-- Embedding of `(cargo_status.code().unwrap_or(1) as u8).into()` in
`cli_main` (src/lib.rs 222): the same recipe at the host side. -/
def cliMainExitCode (code : Option Int) : Nat := ((code.getD 1) % 256).toNat

/-- C7 counterexample: a child exit code of 300 is truncated by the
`as u8` cast to 44 at both sites, so the observing process's exit code is
NOT equal to the child's exit code whenever it exceeds 255. -/
theorem exitCode_truncates :
    remoteAgentExitCode (some 300) = 44 ∧ cliMainExitCode (some 300) = 44 ∧
      (44 : Nat) ≠ 300 := by
  refine ⟨by decide, by decide, by decide⟩

/-- C7 amended: at both sites (remote agent re-exiting with the target's
status, host re-exiting with the build tool's status) the observing exit
code is 1 when the child has no exit code, equals the child's exit code
whenever that code lies in `0..=255`, and in general is the child's code
truncated to its low eight bits. -/
theorem exitCode_propagation (c : Int) (h0 : 0 ≤ c) (h1 : c < 256) :
    remoteAgentExitCode none = 1 ∧ cliMainExitCode none = 1 ∧
      remoteAgentExitCode (some c) = c.toNat ∧ cliMainExitCode (some c) = c.toNat ∧
      (∀ d : Int, remoteAgentExitCode (some d) = (d % 256).toNat ∧
        cliMainExitCode (some d) = (d % 256).toNat) := by
  have hkey : ((some c).getD 1 % 256).toNat = c.toNat := by
    rw [Option.getD_some, Int.emod_eq_of_lt h0 h1]
  exact ⟨rfl, rfl, hkey, hkey, fun d => ⟨rfl, rfl⟩⟩

/-- C7 witness: the exit-code theorem applied at the in-range code 42. -/
theorem exitCode_propagation_witness :
    remoteAgentExitCode (some 42) = (42 : Int).toNat ∧
      cliMainExitCode none = 1 :=
  ⟨(exitCode_propagation 42 (by decide) (by decide)).2.2.1,
    (exitCode_propagation 42 (by decide) (by decide)).2.1⟩

/-! ## Remote agent launch-error handling
(crates/remote/src/lib.rs `main`, windows branch, lines 169-191). -/

/-- The I/O error kinds distinguished by the agent's launch handler. -/
inductive IOErrorKind where
  | fileTooLarge
  | notFound
  | permissionDenied
  | otherKind
deriving DecidableEq, Repr

/-- Outcome of `cmd.status()`. -/
inductive LaunchResult where
  | ok (code : Option Int)
  | err (kind : IOErrorKind)
deriving DecidableEq, Repr

/-- Operator-facing diagnostic written by the agent on launch. -/
inductive AgentMessage where
  | silent
  | webdavSizeLimit
  | failedToExecute
deriving DecidableEq, Repr

/-- Embedding of the windows launch branch of the remote agent `main`
(crates/remote 169-191): a status propagates its (truncated) exit code
with no diagnostic; a `FileTooLarge` error prints the WebDav client
size-limit message and exits 1; any other launch error prints the generic
failed-to-execute message and exits 1. -/
def remoteAgentLaunch : LaunchResult → Nat × AgentMessage
  | .ok status => (remoteAgentExitCode status, .silent)
  | .err kind =>
    if kind = .fileTooLarge then (1, .webdavSizeLimit) else (1, .failedToExecute)

/-- C8: every launch failure exits with code 1; the size-limit rewrite
happens exactly for the `FileTooLarge` ("content too large") error kind,
and every other kind produces the generic failed-to-execute message. -/
theorem remoteAgentLaunch_spec (kind : IOErrorKind) :
    (remoteAgentLaunch (.err kind)).1 = 1 ∧
      ((remoteAgentLaunch (.err kind)).2 = .webdavSizeLimit ↔ kind = .fileTooLarge) ∧
      (kind ≠ .fileTooLarge →
        (remoteAgentLaunch (.err kind)).2 = .failedToExecute) := by
  cases kind <;> exact ⟨by decide, by decide, fun h => by first | decide | exact absurd rfl h⟩

/-- C8 witness: the launch theorem applied at the not-found error kind. -/
theorem remoteAgentLaunch_spec_witness :
    (remoteAgentLaunch (.err .notFound)).2 = .failedToExecute :=
  (remoteAgentLaunch_spec .notFound).2.2 (by decide)

/-! ## Host-registry upsert (src/config/config_file.rs `upsert_with`,
JSON flavour; src/runner/config.rs `upsert_with`, TOML flavour).

The serde_json / toml_edit parsing and rendering machinery is external;
it enters the embedding as abstract `parse` / `render` parameters.  The
control flow around them is the code's own. -/

/-- Host entry of the persisted registry. -/
structure Host where
  destination : String
  targets : List String
deriving DecidableEq, Repr

/-- User decision returned by the interactive closure. -/
inductive UserResponse where
  | addTargetToHost (host_index : Nat)
  | addNewHost (destination : String)

/-- Whitespace-trim emptiness test (`json_config_str.trim().is_empty()`). -/
def trimIsEmpty (s : String) : Bool := (trimChars s.data).isEmpty

/-- Embedding of `upsert_with` of src/config/config_file.rs (JSON): an
empty-after-trim string acts as the empty host list, otherwise `parse` is
consulted; a host already holding the target is returned as-is before the
closure `f` runs and before any rendering; otherwise the closure's choice
is applied and the configuration re-rendered via `render`. -/
def upsert_with_json (parse : String → Except String (List Host))
    (render : List Host → String) (cfg target : String)
    (f : List Host → Except String UserResponse) : Except String (Host × String) :=
  match (if trimIsEmpty cfg then .ok [] else parse cfg : Except String (List Host)) with
  | .error e => .error e
  | .ok hosts =>
    match hosts.find? fun h => h.targets.contains target with
    | some h => .ok (h, cfg)
    | none =>
      match f hosts with
      | .error e => .error e
      | .ok (.addTargetToHost i) =>
        match hosts[i]? with
        | none => .error "Invalid host_index"
        | some h =>
          let hosts' := hosts.set i { h with targets := h.targets ++ [target] }
          .ok (hosts'.getD i h, render hosts')
      | .ok (.addNewHost dest) =>
        match hosts.findIdx? fun h => h.destination = dest with
        | some i =>
          match hosts[i]? with
          | none => .error "Invalid host_index"
          | some h =>
            let hosts' := hosts.set i { h with targets := h.targets ++ [target] }
            .ok (hosts'.getD i h, render hosts')
        | none =>
          let newHost : Host := ⟨dest, [target]⟩
          .ok (newHost, render (hosts ++ [newHost]))

/-- Embedding of `upsert_with` of src/runner/config.rs (TOML): `parse`
abstracts document parsing plus span-checked host extraction; `renderAdd`
and `renderNew` abstract the in-place document edits re-rendered to text.
A host already holding the target is returned before the closure runs and
before any edit; an invalid index panics in the source (`.expect`),
modelled as a distinguished error. -/
def upsert_with_toml (parse : String → Except String (List Host))
    (renderAdd : String → Nat → String → String)
    (renderNew : String → String → String → String)
    (cfg target : String) (f : List Host → UserResponse) :
    Except String (Host × String) :=
  match parse cfg with
  | .error e => .error e
  | .ok hosts =>
    match hosts.find? fun h => h.targets.contains target with
    | some h => .ok (h, cfg)
    | none =>
      match f hosts with
      | .addTargetToHost i =>
        match hosts[i]? with
        | none => .error "panic: Invalid host_index"
        | some h =>
          .ok ({ h with targets := h.targets ++ [target] }, renderAdd cfg i target)
      | .addNewHost dest => .ok (⟨dest, [target]⟩, renderNew cfg dest target)

/-- C10: in both registry editors, if parsing yields a host list in which
some host already holds the target, `upsert_with` returns `Ok` with the
FIRST such host, the returned configuration string is the input string
unchanged, and the result does not depend on the user-input closure at
all (so the closure is never consulted). -/
theorem upsert_with_existing_target
    (parse : String → Except String (List Host)) (render : List Host → String)
    (renderAdd : String → Nat → String → String)
    (renderNew : String → String → String → String)
    (cfg target : String) (hosts : List Host) (h : Host)
    (hparse : parse cfg = .ok hosts)
    (hne : trimIsEmpty cfg = false)
    (hfound : (hosts.find? fun x => x.targets.contains target) = some h) :
    (∀ f, upsert_with_json parse render cfg target f = .ok (h, cfg)) ∧
      (∀ g, upsert_with_toml parse renderAdd renderNew cfg target g = .ok (h, cfg)) := by
  constructor
  · intro f
    rw [upsert_with_json, if_neg (by rw [hne]; exact Bool.false_ne_true), hparse]
    simp only [hfound]
  · intro g
    rw [upsert_with_toml, hparse]
    simp only [hfound]

/-- C10 witness: the early-return theorem applied to a concrete registry
holding the target, with a closure that would report an error if run. -/
theorem upsert_with_existing_target_witness :
    upsert_with_json (fun _ => .ok [⟨"user@server1", ["tgtA"]⟩, ⟨"user@server2", ["tgtB"]⟩])
        (fun _ => "") "cfgtext" "tgtB" (fun _ => .error "closure must not run") =
      .ok (⟨"user@server2", ["tgtB"]⟩, "cfgtext") :=
  (upsert_with_existing_target
    (fun _ => .ok [⟨"user@server1", ["tgtA"]⟩, ⟨"user@server2", ["tgtB"]⟩])
    (fun _ => "") (fun _ _ _ => "") (fun _ _ _ => "") "cfgtext" "tgtB"
    [⟨"user@server1", ["tgtA"]⟩, ⟨"user@server2", ["tgtB"]⟩]
    ⟨"user@server2", ["tgtB"]⟩ rfl (by decide) (by decide)).1
    (fun _ => .error "closure must not run")

end CargoXrun
